import Mathlib

/-!
Verification of the streaming segmentation and transcript-acceptance pipeline
of the dispatch-transcriber repository.

The development shallowly embeds the pure decision logic of the source:

* the transcript heuristics of src/transcribe.py
  (detect_repeated_phrases, is_hallucination, smells_too_long,
  normalize_text, contains_prompt_snippet);
* the escalation controller of src/transcribe.py
  (transcribe_full_segment, reprocess_with_alternate_model, the chunk
  loops of the primary pass and of the alternate pass), with the remote
  transcription service and the silence splitter abstracted as oracles;
* the RMS-threshold voice-activity segmenter of src/audio.py
  (AudioRecorder._record_one_segment) as an explicit state machine over a
  list of read events;
* the keyword-argument binding of the transcribe_full_segment call in
  src/main.py.

Python text is modelled as List Char.  Python str.split, " ".join,
str.strip, str.lower and the two re.sub calls of normalize_text are
modelled character by character over the ASCII whitespace set that the
source traffics in.  Python float arithmetic on word counts and durations
is modelled by exact rationals; integer ratios are written with mkRat so
that concrete instances evaluate inside the kernel.  All definitions are
structural recursions, so every concrete run reduces under decide.
-/

/-- Python text, modelled as a list of characters. -/
abbrev PyStr := List Char

/-- The whitespace characters recognised by Python str.split, str.strip
and the regex class backslash-s, restricted to ASCII. -/
def isPySpace (c : Char) : Bool :=
  c = ' ' || c = '\t' || c = '\n' || c = '\r' || c = '\x0b' || c = '\x0c'

/-- One pass of Python text.split() carrying the reversed current word. -/
def pyWordsAux : PyStr → PyStr → List PyStr
  | [], acc => if acc = [] then [] else [acc.reverse]
  | c :: rest, acc =>
    if isPySpace c then
      if acc = [] then pyWordsAux rest []
      else acc.reverse :: pyWordsAux rest []
    else pyWordsAux rest (c :: acc)

/-- Python text.split(): maximal runs of non-whitespace characters, with
empty pieces dropped. -/
def pyWords (s : PyStr) : List PyStr := pyWordsAux s []

/-- Python " ".join(pieces). -/
def joinSpace : List PyStr → PyStr
  | [] => []
  | [w] => w
  | w :: ws => w ++ ' ' :: joinSpace ws

/-- Python text.strip(): drop whitespace from both ends. -/
def stripPy (s : PyStr) : PyStr :=
  ((s.dropWhile isPySpace).reverse.dropWhile isPySpace).reverse

/-- One pass of whitespace-run collapsing; the flag records whether the
previous character belonged to a whitespace run. -/
def collapseWsAux : PyStr → Bool → PyStr
  | [], _ => []
  | c :: rest, inRun =>
    if isPySpace c then
      if inRun then collapseWsAux rest true
      else ' ' :: collapseWsAux rest true
    else c :: collapseWsAux rest false

/-- Each maximal whitespace run becomes a single space: the effect of
re.sub over the class backslash-s with replacement " "
(normalize_text, src/transcribe.py line 70). -/
def collapseWs (s : PyStr) : PyStr := collapseWsAux s false

/-- The punctuation class removed by normalize_text
(src/transcribe.py line 71). -/
def isPyPunct (c : Char) : Bool :=
  c = '.' || c = ',' || c = ';' || c = ':' || c = '!' || c = '?' ||
  c = '-' || c = '(' || c = ')' || c = '[' || c = ']' || c = '{' ||
  c = '}' || c = '\'' || c = '"'

/-- normalize_text (src/transcribe.py lines 67-72): lower-case, collapse
whitespace runs, remove punctuation, strip. -/
def normalize_text (text : PyStr) : PyStr :=
  stripPy ((collapseWs (text.map Char.toLower)).filter (fun c => !(isPyPunct c)))

/-- Python substring containment (the "in" test on str): the needle occurs
contiguously inside the haystack. -/
def containsSub (hay needle : PyStr) : Bool :=
  (List.range (hay.length + 1)).any (fun j => needle.isPrefixOf (hay.drop j))

/-- contains_prompt_snippet (src/transcribe.py lines 75-87) at its default
char_threshold of 24, the value used by every call site: some length-24
substring of the normalized prompt occurs in the normalized transcript. -/
def contains_prompt_snippet (text prompt_text : PyStr) : Bool :=
  let norm_text := normalize_text text
  let norm_prompt := normalize_text prompt_text
  if norm_prompt.length < 24 ∨ norm_text.length < 24 then false
  else (List.range (norm_prompt.length + 1 - 24)).any
    (fun i => containsSub norm_text ((norm_prompt.drop i).take 24))

/-- The word n-grams of a word list for one n: the source builds
" ".join(words[i : i + n]) for i in range(len(words) - n + 1)
(src/transcribe.py lines 41-44).  The range bound is written
length + 1 - n so that truncated Nat subtraction yields the empty range
exactly when Python's range is empty. -/
def ngramsOf (ws : List PyStr) (n : ℕ) : List PyStr :=
  (List.range (ws.length + 1 - n)).map (fun i => joinSpace ((ws.drop i).take n))

/-- All word n-grams for n in [3, 6], the phrase population counted by
detect_repeated_phrases at its default min/max phrase lengths
(src/transcribe.py lines 38, 41). -/
def allNgrams (text : PyStr) : List PyStr :=
  ([3, 4, 5, 6] : List ℕ).flatMap (fun n => ngramsOf (pyWords text) n)

/-- detect_repeated_phrases (src/transcribe.py lines 38-45) at its default
min_repeats of 3: every phrase paired with its occurrence count, kept when
the count is at least 3.  The source returns a dict keyed by the distinct
phrases; this list form repeats an entry per occurrence, which is
equivalent for the existential test made of it by is_hallucination. -/
def detect_repeated_phrases (text : PyStr) : List (PyStr × ℕ) :=
  ((allNgrams text).map (fun p => (p, (allNgrams text).count p))).filter
    (fun pc => decide (3 ≤ pc.2))

/-- is_hallucination (src/transcribe.py lines 48-56) at its default
threshold of 0.4: some repeated phrase has word coverage
len(phrase.split()) * count of at least two fifths of the total word
count.  The float comparison word_count / total_words >= 0.4 is the exact
rational comparison written with mkRat; the zero-word case never reaches
the division because a text with no words has no 3-grams. -/
def is_hallucination (text : PyStr) : Bool :=
  (detect_repeated_phrases text).any (fun pc =>
    decide (mkRat 2 5 ≤ mkRat ((pyWords pc.1).length * pc.2) ((pyWords text).length)))

/-- The flag the claim text for C1 describes: some n-gram whose coverage
alone reaches forty percent, with no minimum occurrence count.  Written
from the claim words, to be compared with is_hallucination, which is
written from the source. -/
def claimed_hallucination_flag (text : PyStr) : Bool :=
  (allNgrams text).any (fun p =>
    decide (mkRat 2 5 ≤
      mkRat ((pyWords p).length * (allNgrams text).count p) ((pyWords text).length)))

/-- smells_too_long (src/transcribe.py lines 59-64) at its default
wps_threshold of 5.5 and min_words of 20. -/
def smells_too_long (text : PyStr) (audio_duration_sec : ℚ) : Bool :=
  let word_count := (pyWords text).length
  if word_count < 20 then false
  else decide ((11 : ℚ) / 2 < (word_count : ℚ) / max audio_duration_sec ((1 : ℚ) / 10))

/-- The disjunction of the three prompt-echo tests made by
transcribe_full_segment and reprocess_with_alternate_model: the transcript
echoes the dispatch prompt, the short prompt, or the basic prompt
(src/transcribe.py lines 180-182, 202-205, 289-292). -/
def anyEcho (t dispatch shortP basicP : PyStr) : Bool :=
  contains_prompt_snippet t dispatch || contains_prompt_snippet t shortP ||
    contains_prompt_snippet t basicP

/-- The chunk loop of transcribe_full_segment (src/transcribe.py lines
237-254): chunks shorter than 0.25 s are skipped; otherwise the chunk is
sent to whisper-1, modelled by the oracle, where some t is the trimmed
text returned on success and none is a transcription failure after
retries; nonempty texts are collected in order.  The result pairs the
collected texts with the list of chunks actually sent for transcription. -/
def primary_loop {χ : Type} (durOf : χ → ℚ) (whisper : χ → Option PyStr) :
    List χ → List PyStr × List χ
  | [] => ([], [])
  | c :: rest =>
    let r := primary_loop durOf whisper rest
    if durOf c < mkRat 1 4 then r
    else match whisper c with
      | some t => (if t = [] then r.1 else t :: r.1, c :: r.2)
      | none => (r.1, c :: r.2)

/-- The chunk loop of the alternate pass (src/transcribe.py lines
138-150): every chunk is sent to gpt-4o-mini-transcribe, with no duration
check; nonempty texts are collected in order.  The result pairs the
collected texts with the list of chunks sent for transcription. -/
def alt_loop {χ : Type} (res : χ → Option PyStr) :
    List χ → List PyStr × List χ
  | [] => ([], [])
  | c :: rest =>
    let r := alt_loop res rest
    match res c with
    | some t => (if t = [] then r.1 else t :: r.1, c :: r.2)
    | none => (r.1, c :: r.2)

/-- The transcript assembled by the alternate helper (src/transcribe.py
lines 124-160): run the chunk loop and return " ".join(transcripts).strip.
The chunk list is the output of split_on_silence on the utterance audio,
abstracted as a parameter; both alternate attempts split with identical
parameters, so they see the same chunk list. -/
def alt_transcribe {χ : Type} (res : χ → Option PyStr) (altChunks : List χ) : PyStr :=
  stripPy (joinSpace (alt_loop res altChunks).1)

/-- reprocess_with_alternate_model (src/transcribe.py lines 163-215).
altRes up c is the oracle for transcribing chunk c with
gpt-4o-mini-transcribe with use_prompt = up.  The second component counts
the calls made to the alternate transcription helper.  The control flow
mirrors the source: first attempt with prompt; if the three heuristics
flag it, either give up (duration under 1 s) or retry without prompt;
finally re-check the heuristics and return the transcript or empty. -/
def reprocess_with_alternate_model {χ : Type} (altRes : Bool → χ → Option PyStr)
    (altChunks : List χ) (final_duration : ℚ)
    (dispatch shortP basicP : PyStr) : PyStr × ℕ :=
  let transcript := alt_transcribe (altRes true) altChunks
  let flagged := is_hallucination transcript
  if smells_too_long transcript final_duration || flagged ||
      anyEcho transcript dispatch shortP basicP then
    if final_duration < 1 then ([], 1)
    else
      let transcript2 := alt_transcribe (altRes false) altChunks
      let flagged2 := is_hallucination transcript2
      if anyEcho transcript2 dispatch shortP basicP ||
          smells_too_long transcript2 final_duration || flagged2 then ([], 2)
      else (transcript2, 2)
  else
    if anyEcho transcript dispatch shortP basicP ||
        smells_too_long transcript final_duration || flagged then ([], 1)
    else (transcript, 1)

/-- The four ways transcribe_full_segment can leave its utterance:
no nonsilent chunks (return None, line 234), the primary transcript
accepted (line 310), escalation to the alternate model (lines 276, 286,
305; paired with the alternate call count), or the prompt-echo short-clip
skip (return None, line 298). -/
inductive TfsOutcome where
  | noChunks
  | skippedShortEcho
  | escalated (r : PyStr × ℕ)
  | acceptedPrimary (t : PyStr)
deriving DecidableEq

/-- transcribe_full_segment (src/transcribe.py lines 218-310) with the
silence splitter and the transcription service abstracted: chunks and
durOf describe the primary-pass split, whisper the whisper-1 oracle,
altChunks and altRes the alternate-pass split and oracle, final_duration
the duration of the whole utterance audio, and the last three parameters
the loaded prompt texts. -/
def transcribe_full_segment {χ : Type} (durOf : χ → ℚ) (whisper : χ → Option PyStr)
    (chunks : List χ) (altRes : Bool → χ → Option PyStr) (altChunks : List χ)
    (final_duration : ℚ) (dispatch shortP basicP : PyStr) : TfsOutcome :=
  if chunks.isEmpty then .noChunks
  else
    let final_transcript := stripPy (joinSpace (primary_loop durOf whisper chunks).1)
    if smells_too_long final_transcript final_duration then
      .escalated (reprocess_with_alternate_model altRes altChunks final_duration
        dispatch shortP basicP)
    else if is_hallucination final_transcript then
      .escalated (reprocess_with_alternate_model altRes altChunks final_duration
        dispatch shortP basicP)
    else if anyEcho final_transcript dispatch shortP basicP then
      if final_duration < 1 then .skippedShortEcho
      else .escalated (reprocess_with_alternate_model altRes altChunks final_duration
        dispatch shortP basicP)
    else .acceptedPrimary final_transcript

/-- The value transcribe_full_segment hands back to the caller in main.py:
None for noChunks and for the short-clip skip, the accepted primary text,
or whatever string the alternate pass produced (possibly empty). -/
def transcribe_full_segment_value {χ : Type} (durOf : χ → ℚ)
    (whisper : χ → Option PyStr) (chunks : List χ)
    (altRes : Bool → χ → Option PyStr) (altChunks : List χ)
    (final_duration : ℚ) (dispatch shortP basicP : PyStr) : Option PyStr :=
  match transcribe_full_segment durOf whisper chunks altRes altChunks
      final_duration dispatch shortP basicP with
  | .noChunks => none
  | .skippedShortEcho => none
  | .escalated r => some r.1
  | .acceptedPrimary t => some t

/-- The disjunction of the three heuristics over the concatenated
primary transcript, the notion of "flagged" used by the quality gate
(src/transcribe.py lines 270, 279, 289-292). -/
def primaryFlagged (t : PyStr) (dur : ℚ) (dispatch shortP basicP : PyStr) : Bool :=
  smells_too_long t dur || is_hallucination t || anyEcho t dispatch shortP basicP

/-- The flag reprocess_with_alternate_model computes over one alternate
attempt (src/transcribe.py lines 176-183 and 202-207): the same three
heuristics, over the alternate transcript. -/
def alt_flag (t : PyStr) (dur : ℚ) (dispatch shortP basicP : PyStr) : Bool :=
  smells_too_long t dur || is_hallucination t || anyEcho t dispatch shortP basicP

/-- One block returned by an input stream read in
AudioRecorder._record_one_segment: its byte length and the RMS that
audioop.rms computes over it when the byte length is a multiple of the
sample width 2; for misaligned blocks audioop.rms raises audioop.error
and the machine never consults the rms field.  The dB energy 20 * log10(rms), with rms = 0
mapped to negative infinity, is compared against threshold_db only
through the strict test db > threshold_db; since rms is a nonnegative
integer and log10 is strictly monotone, that test equals rms > L for the
integer L = floor(10 ^ (threshold_db / 20)), which is the linear
threshold the machine carries (theorem db_threshold_linearizes below). -/
structure Frame where
  nbytes : ℕ
  rms : ℕ
deriving DecidableEq

/-- One iteration of the read loop: either input_stream.read returned a
block, or it raised an exception (src/audio.py lines 95-102). -/
inductive ReadEvent where
  | ok (f : Frame)
  | err
deriving DecidableEq

/-- The loop state of _record_one_segment (src/audio.py lines 84-87):
the look-back buffer, the active utterance buffer, the trailing-silence
counter and the recording flag. -/
structure SegState where
  lookback : List Frame
  active : List Frame
  silenceCount : ℕ
  recording : Bool
deriving DecidableEq

/-- The all-zero placeholder block that pre-fills the look-back buffer
(src/audio.py line 90); audioop.rms of the zero block is 0. -/
def silentFrame (B : ℕ) : Frame := ⟨B, 0⟩

/-- The initial state of one segment recording (src/audio.py lines 84-92):
N placeholder frames in the look-back buffer, empty active buffer,
counter 0, not recording. -/
def initSeg (B N : ℕ) : SegState :=
  ⟨List.replicate N (silentFrame B), [], 0, false⟩

/-- Processing one successfully read block (src/audio.py lines 125-142):
above threshold, start recording if needed, flush the look-back buffer
into the active buffer, append the block, reset the counter; at or below
threshold while recording, append the block, bump the counter and
finalize once it reaches N; otherwise rotate the look-back buffer. -/
def segStep (L N : ℕ) (s : SegState) (f : Frame) : SegState ⊕ List Frame :=
  if L < f.rms then
    .inl ⟨s.lookback, (if s.recording then s.active else s.active ++ s.lookback) ++ [f],
      0, true⟩
  else if s.recording then
    if N ≤ s.silenceCount + 1 then .inr (s.active ++ [f])
    else .inl ⟨s.lookback, s.active ++ [f], s.silenceCount + 1, true⟩
  else
    .inl ⟨s.lookback.drop 1 ++ [f], s.active, s.silenceCount, s.recording⟩

/-- The read loop of _record_one_segment (src/audio.py lines 94-146):
a read exception or an empty read returns None; a nonempty block whose
byte length is not a multiple of the sample width 2 makes audioop.rms at
line 104, which sits outside the try around the read, raise
audioop.error, aborting the recorder through the handler in run with no
utterance finalized from this call, modelled as none; running out of
events models the stop request, which also returns None; otherwise the
state steps until a buffer is finalized. -/
def segRun (L N : ℕ) : SegState → List ReadEvent → Option (List Frame)
  | _, [] => none
  | _, .err :: _ => none
  | s, .ok f :: rest =>
    if f.nbytes = 0 then none
    else if f.nbytes % 2 ≠ 0 then none
    else match segStep L N s f with
      | .inl s2 => segRun L N s2 rest
      | .inr buf => some buf

/-- _record_one_segment (src/audio.py lines 79-146) over a list of read
events, with linear threshold L, silence_buffer_chunks N and
bytes_per_chunk B. -/
def record_one_segment (L N B : ℕ) (events : List ReadEvent) : Option (List Frame) :=
  segRun L N (initSeg B N) events

/-- The look-back buffer contents after consuming a list of pre-speech
blocks: each block evicts the oldest entry and is appended
(src/audio.py lines 141-142). -/
def lookAfter (lb : List Frame) (pre : List Frame) : List Frame :=
  pre.foldl (fun b f => b.drop 1 ++ [f]) lb

/-- The parameter names of def transcribe_full_segment
(src/transcribe.py lines 218-221). -/
def transcribe_full_segment_params : List String :=
  ["segment_wav_path", "temp_chunks_dir"]

/-- The keyword arguments of the transcribe_full_segment call in the main
consumer loop (src/main.py lines 140-145). -/
def main_transcribe_call_kwargs : List String :=
  ["segment_wav_path", "temp_chunks_dir", "min_silence_len", "silence_thresh"]

/-- Python keyword binding: a call binds only when every keyword names a
parameter; an unexpected keyword raises TypeError before the body runs. -/
def kwargs_accepted (params kwargs : List String) : Bool :=
  kwargs.all (fun k => params.contains k)

/-- What one iteration of the main consumer loop does with a dequeued
segment (src/main.py lines 129-245): every exception, including the
TypeError raised at the call itself, lands in the generic handler at line
243 and the iteration produces nothing. -/
inductive MainIterResult where
  | exceptionCaught
  | skippedNoTranscript
  | persisted (transcript : PyStr)
deriving DecidableEq

/-- One iteration of the main consumer loop (src/main.py lines 129-245)
over a dequeued segment: call transcribe_full_segment with the keyword
arguments written at lines 140-145, treat None or empty as no transcript
(line 148), apply filter_transcript (line 156), and otherwise persist and
notify.  The transcription result and the filter are oracles. -/
def main_loop_iteration (call_kwargs : List String) (tfs : Unit → Option PyStr)
    (filter_fn : PyStr → Option PyStr) : MainIterResult :=
  if kwargs_accepted transcribe_full_segment_params call_kwargs = false then
    .exceptionCaught
  else match tfs () with
    | none => .skippedNoTranscript
    | some t =>
      if t = [] then .skippedNoTranscript
      else match filter_fn t with
        | none => .skippedNoTranscript
        | some ft => .persisted ft

theorem mem_pyWordsAux (s : PyStr) : ∀ (acc : PyStr), (∀ c ∈ acc, isPySpace c = false) →
    ∀ w ∈ pyWordsAux s acc, w ≠ [] ∧ ∀ c ∈ w, isPySpace c = false := by
  induction s with
  | nil =>
    intro acc hacc w hw
    by_cases h : acc = []
    · simp [pyWordsAux, h] at hw
    · simp only [pyWordsAux, if_neg h, List.mem_singleton] at hw
      subst hw
      refine ⟨by simpa using h, fun c hc => hacc c (by simpa using hc)⟩
  | cons a s ih =>
    intro acc hacc w hw
    by_cases ha : isPySpace a
    · by_cases h : acc = []
      · simp only [pyWordsAux, if_pos ha, if_pos h] at hw
        exact ih [] (by simp) w hw
      · simp only [pyWordsAux, if_pos ha, if_neg h, List.mem_cons] at hw
        rcases hw with hw | hw
        · subst hw
          refine ⟨by simpa using h, fun c hc => hacc c (by simpa using hc)⟩
        · exact ih [] (by simp) w hw
    · simp only [pyWordsAux, if_neg ha] at hw
      refine ih (a :: acc) ?_ w hw
      intro c hc
      rcases List.mem_cons.mp hc with rfl | hc
      · simpa using ha
      · exact hacc c hc

/-- Every word produced by pyWords is nonempty and whitespace-free. -/
theorem pyWords_sound (t : PyStr) :
    ∀ w ∈ pyWords t, w ≠ [] ∧ ∀ c ∈ w, isPySpace c = false :=
  mem_pyWordsAux t [] (by simp)

theorem pyWordsAux_append_word (w : PyStr) :
    ∀ (t acc : PyStr), (∀ c ∈ w, isPySpace c = false) →
      pyWordsAux (w ++ t) acc = pyWordsAux t (w.reverse ++ acc) := by
  induction w with
  | nil => intro t acc _; simp
  | cons a w ih =>
    intro t acc hw
    have ha : isPySpace a = false := hw a (by simp)
    have h1 : pyWordsAux ((a :: w) ++ t) acc = pyWordsAux (w ++ t) (a :: acc) := by
      simp [pyWordsAux, ha]
    rw [h1, ih t (a :: acc) (fun c hc => hw c (by simp [hc]))]
    simp

/-- Splitting undoes joining: pyWords of " ".join(ws) recovers ws when
every piece is nonempty and whitespace-free. -/
theorem pyWords_joinSpace (ws : List PyStr)
    (h : ∀ w ∈ ws, w ≠ [] ∧ ∀ c ∈ w, isPySpace c = false) :
    pyWords (joinSpace ws) = ws := by
  induction ws with
  | nil => rfl
  | cons w ws ih =>
    obtain ⟨hw0, hwch⟩ := h w (by simp)
    cases ws with
    | nil =>
      show pyWordsAux (joinSpace [w]) [] = [w]
      have : joinSpace [w] = w ++ [] := by simp [joinSpace]
      rw [this, pyWordsAux_append_word w [] [] hwch]
      have hr : w.reverse ≠ [] := by simpa using hw0
      simp [pyWordsAux, hr]
    | cons w2 ws2 =>
      show pyWordsAux (joinSpace (w :: w2 :: ws2)) [] = w :: w2 :: ws2
      have hj : joinSpace (w :: w2 :: ws2) = w ++ ' ' :: joinSpace (w2 :: ws2) := rfl
      rw [hj, pyWordsAux_append_word w (' ' :: joinSpace (w2 :: ws2)) [] hwch,
        List.append_nil]
      have hr : w.reverse ≠ [] := by simpa using hw0
      have hsp : isPySpace ' ' = true := rfl
      have hstep : pyWordsAux (' ' :: joinSpace (w2 :: ws2)) w.reverse
          = w.reverse.reverse :: pyWordsAux (joinSpace (w2 :: ws2)) [] := by
        simp [pyWordsAux, hsp, hr]
      rw [hstep, List.reverse_reverse]
      exact congrArg (w :: ·) (ih (fun v hv => h v (by simp [hv])))

/-- The executable substring test agrees with list infixhood. -/
theorem containsSub_iff (hay needle : PyStr) :
    containsSub hay needle = true ↔ needle <:+: hay := by
  unfold containsSub
  rw [List.any_eq_true]
  constructor
  · rintro ⟨j, _, hpre⟩
    rw [ List.isPrefixOf_iff_prefix] at hpre
    obtain ⟨t, ht⟩ := hpre
    exact ⟨hay.take j, t, by rw [List.append_assoc, ht, List.take_append_drop]⟩
  · rintro ⟨u, v, huv⟩
    refine ⟨u.length, List.mem_range.mpr ?_, ?_⟩
    · have := congrArg List.length huv
      simp at this
      omega
    · rw [ List.isPrefixOf_iff_prefix]
      have : List.drop u.length hay = needle ++ v := by
        rw [← huv, List.append_assoc, List.drop_left]
      rw [this]
      exact List.prefix_append needle v
example : normalize_text "  He said: STOP!  now ".toList = "he said stop now".toList := by decide
example : normalize_text "a . b".toList = "a  b".toList := by decide
example : is_hallucination "a b c".toList = false := by decide
example : claimed_hallucination_flag "a b c".toList = true := by decide
example : contains_prompt_snippet "abcdefghijklmnopqrstuvwxyz".toList
    "zzz abcdefghijklmnopqrstuvwx".toList = true := by decide
example : contains_prompt_snippet "abcdefghijklmnopqrstuvwxyz".toList
    "abcdefghijklmnopqrstuvw zxy".toList = false := by decide

/-- Claim C4: contains_prompt_snippet flags a transcript and hint pair
exactly when some length-24 substring of the normalized hint occurs
verbatim in the normalized transcript.  The guard clauses of the source
for short normalized strings are absorbed by the equivalence: a length-24
substring cannot exist inside a string shorter than 24 characters. -/
theorem prompt_echo_iff_shared_window (text prompt : PyStr) :
    contains_prompt_snippet text prompt = true ↔
      ∃ s : PyStr, s <:+: normalize_text prompt ∧ s.length = 24 ∧
        s <:+: normalize_text text := by
  rw [show contains_prompt_snippet text prompt =
      (if (normalize_text prompt).length < 24 ∨ (normalize_text text).length < 24 then false
       else (List.range ((normalize_text prompt).length + 1 - 24)).any
         (fun i => containsSub (normalize_text text)
           (((normalize_text prompt).drop i).take 24))) from rfl]
  by_cases hg : (normalize_text prompt).length < 24 ∨ (normalize_text text).length < 24
  · rw [if_pos hg]
    constructor
    · intro h; exact absurd h (by simp)
    · rintro ⟨s, hsp, h24, hst⟩
      rcases hg with hg | hg
      · have := List.IsInfix.length_le hsp; omega
      · have := List.IsInfix.length_le hst; omega
  · rw [if_neg hg, List.any_eq_true]
    rw [not_or, Nat.not_lt, Nat.not_lt] at hg
    obtain ⟨hp24, ht24⟩ := hg
    constructor
    · rintro ⟨i, hi, hsub⟩
      rw [List.mem_range] at hi
      refine ⟨((normalize_text prompt).drop i).take 24, ?_, ?_,
        (containsSub_iff _ _).mp hsub⟩
      · refine ⟨(normalize_text prompt).take i, ((normalize_text prompt).drop i).drop 24, ?_⟩
        rw [List.append_assoc, List.take_append_drop, List.take_append_drop]
      · rw [List.length_take, List.length_drop]; omega
    · rintro ⟨s, ⟨u, v, huv⟩, h24, hst⟩
      have hl := congrArg List.length huv
      simp at hl
      refine ⟨u.length, List.mem_range.mpr (by omega), (containsSub_iff _ _).mpr ?_⟩
      have hdrop : (normalize_text prompt).drop u.length = s ++ v := by
        rw [← huv, List.append_assoc, List.drop_left]
      rw [hdrop, ← h24, List.take_left]
      exact hst

/-- Claim C1 counterexample: on the three-word text "a b c" the single
3-gram covers all three words, so the coverage condition of the claim
holds, yet is_hallucination does not flag the text, because the phrase
occurs only once and detect_repeated_phrases requires at least 3
occurrences. -/
theorem hallucination_claim_false_at_abc :
    claimed_hallucination_flag ("a b c").toList = true ∧
      is_hallucination ("a b c").toList = false := by decide

/-- Claim C1 (amended): is_hallucination flags a text exactly when some
word n-gram with n in [3, 6] occurs at least 3 times and its total word
coverage, n times its occurrence count, is at least forty percent of the
total word count.  In particular the 4-word phrase repeated 10 times
among 40 words is flagged, and the one repeated only twice among 40
words, padded with distinct filler words, is not. -/
theorem hallucination_iff_covered_repeat :
    (∀ text : PyStr, is_hallucination text = true ↔
      ∃ n i : ℕ, 3 ≤ n ∧ n ≤ 6 ∧ i + n ≤ (pyWords text).length ∧
        3 ≤ (allNgrams text).count (joinSpace (((pyWords text).drop i).take n)) ∧
        (2 : ℚ) / 5 ≤
          ((n * (allNgrams text).count (joinSpace (((pyWords text).drop i).take n)) : ℕ) : ℚ) /
            (((pyWords text).length : ℕ) : ℚ)) ∧
    is_hallucination ("a b c d a b c d a b c d a b c d a b c d a b c d a b c d a b c d a b c d a b c d").toList = true ∧
    is_hallucination ("a b c d a b c d e f g h i j k l m n o p q r s t u v w x y z aa bb cc dd ee ff gg hh ii jj").toList = false := by
  refine ⟨?_, by decide, by decide⟩
  intro text
  have hslice : ∀ i n : ℕ,
      pyWords (joinSpace (((pyWords text).drop i).take n)) = ((pyWords text).drop i).take n :=
    fun i n => pyWords_joinSpace _
      (fun w hw => pyWords_sound text w (List.mem_of_mem_drop (List.mem_of_mem_take hw)))
  constructor
  · intro h
    unfold is_hallucination at h
    rw [List.any_eq_true] at h
    obtain ⟨pc, hmem, hcov⟩ := h
    unfold detect_repeated_phrases at hmem
    rw [List.mem_filter] at hmem
    obtain ⟨hmap, hcnt⟩ := hmem
    rw [List.mem_map] at hmap
    obtain ⟨p, hp, hpc⟩ := hmap
    subst hpc
    unfold allNgrams at hp
    rw [List.mem_flatMap] at hp
    obtain ⟨n, hn, hpn⟩ := hp
    unfold ngramsOf at hpn
    rw [List.mem_map] at hpn
    obtain ⟨i, hi, hpeq⟩ := hpn
    rw [List.mem_range] at hi
    subst hpeq
    have hn36 : 3 ≤ n ∧ n ≤ 6 := by
      simp only [List.mem_cons, List.mem_singleton] at hn
      rcases hn with rfl | rfl | rfl | rfl | h0
      · omega
      · omega
      · omega
      · omega
      · simp at h0
    have hin : i + n ≤ (pyWords text).length := by omega
    have hlen : (((pyWords text).drop i).take n).length = n := by
      rw [List.length_take, List.length_drop]; omega
    dsimp only at hcnt hcov
    rw [decide_eq_true_eq] at hcnt
    rw [decide_eq_true_eq, hslice i n, hlen, Rat.mkRat_eq_div, Rat.mkRat_eq_div] at hcov
    refine ⟨n, i, hn36.1, hn36.2, hin, hcnt, ?_⟩
    push_cast at hcov ⊢
    convert hcov using 2
  · rintro ⟨n, i, h3, h6, hin, hcnt, hcov⟩
    unfold is_hallucination
    rw [List.any_eq_true]
    have hlen : (((pyWords text).drop i).take n).length = n := by
      rw [List.length_take, List.length_drop]; omega
    refine ⟨(joinSpace (((pyWords text).drop i).take n),
      (allNgrams text).count (joinSpace (((pyWords text).drop i).take n))), ?_, ?_⟩
    · unfold detect_repeated_phrases
      rw [List.mem_filter]
      refine ⟨List.mem_map.mpr ⟨joinSpace (((pyWords text).drop i).take n), ?_, rfl⟩, ?_⟩
      · unfold allNgrams
        rw [List.mem_flatMap]
        refine ⟨n, by interval_cases n <;> simp, ?_⟩
        unfold ngramsOf
        exact List.mem_map.mpr ⟨i, List.mem_range.mpr (by omega), rfl⟩
      · simpa using hcnt
    · dsimp only
      rw [decide_eq_true_eq, hslice i n, hlen, Rat.mkRat_eq_div, Rat.mkRat_eq_div]
      push_cast at hcov ⊢
      convert hcov using 2

/-- The dB comparison of the source is a linear-threshold comparison on
the integer RMS: for every real threshold thr there is an integer L such
that 20 * log10 rms > thr holds exactly when rms > L, counting rms = 0,
whose energy is negative infinity, as never above threshold.  This
justifies carrying the linear threshold L in the segmenter model. -/
theorem db_threshold_linearizes (thr : ℝ) :
    ∃ L : ℕ, ∀ rms : ℕ,
      ((0 < rms ∧ thr < 20 * Real.logb 10 rms) ↔ L < rms) := by
  refine ⟨⌊(10 : ℝ) ^ (thr / 20)⌋₊, ?_⟩
  intro rms
  constructor
  · rintro ⟨h0, hdb⟩
    rw [Nat.floor_lt (Real.rpow_nonneg (by norm_num) _)]
    have h10 : (1 : ℝ) < 10 := by norm_num
    have hx : (0 : ℝ) < rms := by exact_mod_cast h0
    have hlt : thr / 20 < Real.logb 10 rms := by linarith
    calc (10 : ℝ) ^ (thr / 20) < 10 ^ (Real.logb 10 (rms : ℝ)) :=
        (Real.rpow_lt_rpow_left_iff h10).mpr hlt
      _ = rms := Real.rpow_logb (by norm_num) (by norm_num) hx
  · intro hL
    have h0 : 0 < rms := lt_of_le_of_lt (Nat.zero_le _) hL
    refine ⟨h0, ?_⟩
    rw [Nat.floor_lt (Real.rpow_nonneg (by norm_num) _)] at hL
    have hx : (0 : ℝ) < rms := by exact_mod_cast h0
    have := (Real.lt_logb_iff_rpow_lt (by norm_num : (1 : ℝ) < 10) hx).mpr hL
    linarith

/-- A segmenter that never saw a frame above threshold never leaves the
look-back phase nor produces a buffer. -/
theorem segRun_all_quiet (L N : ℕ) :
    ∀ (events : List ReadEvent) (s : SegState), s.recording = false →
      (∀ f : Frame, ReadEvent.ok f ∈ events → f.rms ≤ L) →
      segRun L N s events = none := by
  intro events
  induction events with
  | nil => intro s _ _; rfl
  | cons e rest ih =>
    intro s hrec hq
    cases e with
    | err => rfl
    | ok f =>
      by_cases hb : f.nbytes = 0
      · simp [segRun, hb]
      · by_cases hm : f.nbytes % 2 ≠ 0
        · simp [segRun, hb, hm]
        · have hf : f.rms ≤ L := hq f (by simp)
          have hl : ¬ (L < f.rms) := Nat.not_lt.mpr hf
          have hstep : segStep L N s f =
              Sum.inl ⟨s.lookback.drop 1 ++ [f], s.active, s.silenceCount, s.recording⟩ := by
            simp [segStep, hl, hrec]
          simp only [segRun, if_neg hb, if_neg hm, hstep]
          exact ih _ hrec (fun g hg => hq g (by simp [hg]))

/-- Any buffer the segmenter finalizes is nonempty and contains a frame
above threshold; the invariant is that the recording flag always comes
with such a frame already in the active buffer. -/
theorem segRun_some_inv (L N : ℕ) :
    ∀ (events : List ReadEvent) (s : SegState) (buf : List Frame),
      (s.recording = true → ∃ f ∈ s.active, L < f.rms) →
      segRun L N s events = some buf →
      buf ≠ [] ∧ ∃ f ∈ buf, L < f.rms := by
  intro events
  induction events with
  | nil => intro s buf _ h; simp [segRun] at h
  | cons e rest ih =>
    intro s buf hloud h
    cases e with
    | err => simp [segRun] at h
    | ok f =>
      by_cases hb : f.nbytes = 0
      · simp [segRun, hb] at h
      · have hal : f.nbytes % 2 = 0 := by
          by_contra hm
          simp [segRun, hb, hm] at h
        have hm2 : ¬ (f.nbytes % 2 ≠ 0) := by simp [hal]
        simp only [segRun, if_neg hb, if_neg hm2] at h
        by_cases hl : L < f.rms
        · have hstep : segStep L N s f = Sum.inl ⟨s.lookback,
              (if s.recording then s.active else s.active ++ s.lookback) ++ [f], 0, true⟩ := by
            simp [segStep, hl]
          rw [hstep] at h
          exact ih _ buf (fun _ => ⟨f, by simp, hl⟩) h
        · by_cases hrec : s.recording = true
          · by_cases hN : N ≤ s.silenceCount + 1
            · have hstep : segStep L N s f = Sum.inr (s.active ++ [f]) := by
                simp [segStep, hl, hrec, hN]
              rw [hstep] at h
              obtain ⟨g, hg, hgl⟩ := hloud hrec
              cases h
              exact ⟨by simp, g, by simp [hg], hgl⟩
            · have hstep : segStep L N s f = Sum.inl ⟨s.lookback, s.active ++ [f],
                  s.silenceCount + 1, true⟩ := by simp [segStep, hl, hrec, hN]
              rw [hstep] at h
              refine ih _ buf ?_ h
              intro _
              obtain ⟨g, hg, hgl⟩ := hloud hrec
              exact ⟨g, by simp [hg], hgl⟩
          · have hrec2 : s.recording = false := by
              cases hx : s.recording
              · rfl
              · exact absurd hx hrec
            have hstep : segStep L N s f = Sum.inl ⟨s.lookback.drop 1 ++ [f], s.active,
                s.silenceCount, s.recording⟩ := by simp [segStep, hl, hrec2]
            rw [hstep] at h
            refine ih _ buf ?_ h
            intro hx
            exact absurd hx (by simp [hrec2])

/-- Claim C6: if every read frame has RMS at or below the linear
threshold, equivalently dB energy at or below the dB threshold, the
segmenter never finalizes an utterance; and every finalized buffer is
nonempty and contains at least one frame whose energy exceeded the
threshold. -/
theorem segmenter_silence_invariant (L N B : ℕ) (events : List ReadEvent) :
    ((∀ f : Frame, ReadEvent.ok f ∈ events → f.rms ≤ L) →
      record_one_segment L N B events = none) ∧
    (∀ buf : List Frame, record_one_segment L N B events = some buf →
      buf ≠ [] ∧ ∃ f ∈ buf, L < f.rms) := by
  constructor
  · intro hq
    exact segRun_all_quiet L N events (initSeg B N) rfl hq
  · intro buf h
    refine segRun_some_inv L N events (initSeg B N) buf ?_ h
    intro hx
    simp [initSeg] at hx

/-- Witness for C6 at a concrete silent stream of two quiet frames. -/
theorem segmenter_silence_witness :
    record_one_segment 5 2 1024 [ReadEvent.ok ⟨1024, 0⟩, ReadEvent.ok ⟨1024, 3⟩] = none :=
  (segmenter_silence_invariant 5 2 1024
    [ReadEvent.ok ⟨1024, 0⟩, ReadEvent.ok ⟨1024, 3⟩]).1 (by
      intro f hf
      simp only [List.mem_cons, List.not_mem_nil, or_false, ReadEvent.ok.injEq] at hf
      rcases hf with rfl | rfl <;> decide)

theorem getLastD_append_cons {α : Type} (l1 : List α) (c : α) (l2 : List α) (d : α) :
    (l1 ++ c :: l2).getLastD d = l2.getLastD c := by
  induction l1 generalizing d with
  | nil => rw [List.nil_append, List.getLastD_cons]
  | cons a l1 ih =>
    rw [List.cons_append, List.getLastD_cons]
    exact ih a

/-- After consuming pre-speech frames, the look-back buffer holds the
last N entries of the placeholder prefix followed by the consumed
frames, provided it is nonempty throughout. -/
theorem lookAfter_formula :
    ∀ (pre lb : List Frame), 0 < lb.length →
      lookAfter lb pre = (lb ++ pre).drop pre.length := by
  intro pre
  induction pre with
  | nil => intro lb _; simp [lookAfter]
  | cons f pre ih =>
    intro lb hlb
    cases lb with
    | nil => simp at hlb
    | cons c lb2 =>
      have h1 : lookAfter (c :: lb2) (f :: pre) = lookAfter (lb2 ++ [f]) pre := by
        simp [lookAfter]
      rw [h1, ih (lb2 ++ [f]) (by simp)]
      simp [List.append_assoc]

/-- Look-back phase: a finalized run from the non-recording state splits
the events into quiet pre-speech frames, a first above-threshold frame,
and a remainder processed from the freshly started recording state whose
active buffer is the rotated look-back buffer plus the onset frame. -/
theorem segRun_lookback_phase (L N : ℕ) :
    ∀ (events : List ReadEvent) (lb : List Frame) (buf : List Frame),
      segRun L N ⟨lb, [], 0, false⟩ events = some buf →
      ∃ (pre : List Frame) (f0 : Frame) (rest : List ReadEvent),
        events = pre.map ReadEvent.ok ++ ReadEvent.ok f0 :: rest ∧
        (∀ f ∈ pre, f.rms ≤ L) ∧ L < f0.rms ∧
        segRun L N ⟨lookAfter lb pre, lookAfter lb pre ++ [f0], 0, true⟩ rest = some buf := by
  intro events
  induction events with
  | nil => intro lb buf h; simp [segRun] at h
  | cons e rest ih =>
    intro lb buf h
    cases e with
    | err => simp [segRun] at h
    | ok f =>
      by_cases hb : f.nbytes = 0
      · simp [segRun, hb] at h
      · have hal : f.nbytes % 2 = 0 := by
          by_contra hm
          simp [segRun, hb, hm] at h
        have hm2 : ¬ (f.nbytes % 2 ≠ 0) := by simp [hal]
        simp only [segRun, if_neg hb, if_neg hm2] at h
        by_cases hl : L < f.rms
        · have hstep : segStep L N ⟨lb, [], 0, false⟩ f =
              Sum.inl ⟨lb, lb ++ [f], 0, true⟩ := by
            simp [segStep, hl]
          rw [hstep] at h
          exact ⟨[], f, rest, by simp, by simp, hl, by simpa [lookAfter] using h⟩
        · have hstep : segStep L N ⟨lb, [], 0, false⟩ f =
              Sum.inl ⟨lb.drop 1 ++ [f], [], 0, false⟩ := by
            simp [segStep, hl]
          rw [hstep] at h
          obtain ⟨pre, f0, rest2, heq, hpre, hf0, hrun⟩ := ih (lb.drop 1 ++ [f]) buf h
          refine ⟨f :: pre, f0, rest2, by simp [heq], ?_, hf0, ?_⟩
          · intro g hg
            rcases List.mem_cons.mp hg with rfl | hg
            · exact Nat.not_lt.mp hl
            · exact hpre g hg
          · simpa [lookAfter] using hrun

/-- Recording phase: from a recording state whose active buffer is a part
u ending in an above-threshold frame followed by the current trailing
quiet run t, a finalized buffer extends the active buffer by the consumed
frames and ends in exactly N consecutive quiet frames preceded by an
above-threshold frame. -/
theorem segRun_recording_phase (L N : ℕ) :
    ∀ (events : List ReadEvent) (lb u t : List Frame) (g : Frame) (buf : List Frame),
      t.length < N → (∀ f ∈ t, f.rms ≤ L) → u.getLast? = some g → L < g.rms →
      segRun L N ⟨lb, u ++ t, t.length, true⟩ events = some buf →
      ∃ (body mid trail : List Frame) (suffix : List ReadEvent),
        events = body.map ReadEvent.ok ++ suffix ∧
        buf = u ++ t ++ body ∧
        t ++ body = mid ++ trail ∧
        trail.length = N ∧ (∀ f ∈ trail, f.rms ≤ L) ∧
        L < (mid.getLastD g).rms := by
  intro events
  induction events with
  | nil => intro lb u t g buf _ _ _ _ h; simp [segRun] at h
  | cons e rest ih =>
    intro lb u t g buf htN htq hug hgl h
    cases e with
    | err => simp [segRun] at h
    | ok f =>
      by_cases hb : f.nbytes = 0
      · simp [segRun, hb] at h
      · have hal : f.nbytes % 2 = 0 := by
          by_contra hm
          simp [segRun, hb, hm] at h
        have hm2 : ¬ (f.nbytes % 2 ≠ 0) := by simp [hal]
        simp only [segRun, if_neg hb, if_neg hm2] at h
        by_cases hl : L < f.rms
        · have hstep : segStep L N ⟨lb, u ++ t, t.length, true⟩ f =
              Sum.inl ⟨lb, (u ++ t) ++ [f], 0, true⟩ := by simp [segStep, hl]
          rw [hstep] at h
          have h2 : segRun L N ⟨lb, (u ++ t ++ [f]) ++ ([] : List Frame),
              ([] : List Frame).length, true⟩ rest = some buf := by simpa using h
          obtain ⟨body, mid, trail, suffix, heq, hbuf, hsplit, htr, htrq, hmidl⟩ :=
            ih lb (u ++ t ++ [f]) [] f buf (by simp; omega)
              (by simp) (by simp) hl h2
          have hsplit2 : body = mid ++ trail := by simpa using hsplit
          refine ⟨f :: body, t ++ f :: mid, trail, suffix, by simp [heq], ?_, ?_, htr, htrq, ?_⟩
          · rw [hbuf]; simp
          · rw [hsplit2]; simp
          · rw [getLastD_append_cons]
            exact hmidl
        · by_cases hN : N ≤ t.length + 1
          · have hstep : segStep L N ⟨lb, u ++ t, t.length, true⟩ f =
                Sum.inr ((u ++ t) ++ [f]) := by simp [segStep, hl, hN]
            rw [hstep] at h
            cases h
            refine ⟨[f], [], t ++ [f], rest, by simp, by simp, by simp, ?_, ?_, ?_⟩
            · simp; omega
            · intro x hx
              rcases List.mem_append.mp hx with hx | hx
              · exact htq x hx
              · rcases List.mem_singleton.mp hx with rfl
                exact Nat.not_lt.mp hl
            · simpa [List.getLastD] using hgl
          · have hstep : segStep L N ⟨lb, u ++ t, t.length, true⟩ f =
                Sum.inl ⟨lb, (u ++ t) ++ [f], t.length + 1, true⟩ := by
              simp [segStep, hl, hN]
            rw [hstep] at h
            have h2 : segRun L N ⟨lb, u ++ (t ++ [f]), (t ++ [f]).length, true⟩
                rest = some buf := by
              have hlen : (t ++ [f]).length = t.length + 1 := by simp
              rw [hlen, ← List.append_assoc]
              exact h
            have htq2 : ∀ x ∈ t ++ [f], x.rms ≤ L := by
              intro x hx
              rcases List.mem_append.mp hx with hx | hx
              · exact htq x hx
              · rcases List.mem_singleton.mp hx with rfl
                exact Nat.not_lt.mp hl
            obtain ⟨body, mid, trail, suffix, heq, hbuf, hsplit, htr, htrq, hmidl⟩ :=
              ih lb u (t ++ [f]) g buf (by simp; omega) htq2 hug hgl h2
            refine ⟨f :: body, mid, trail, suffix, by simp [heq], ?_, ?_, htr, htrq, hmidl⟩
            · rw [hbuf]; simp
            · rw [← hsplit]; simp

/-- Claim C7: every finalized buffer is exactly the N look-back frames at
the moment speech started, silence placeholders standing in when fewer
than N real frames had been read, then the first above-threshold frame,
then all subsequently consumed frames, ending in exactly N consecutive
at-or-below-threshold frames whose immediate predecessor is above
threshold, which is where the trailing-silence counter reached N. -/
theorem segmenter_buffer_shape (L N B : ℕ) (events : List ReadEvent) (buf : List Frame)
    (hN : 0 < N) (h : record_one_segment L N B events = some buf) :
    ∃ (pre : List Frame) (f0 : Frame) (body mid trail : List Frame)
      (suffix : List ReadEvent),
      events = pre.map ReadEvent.ok ++ ReadEvent.ok f0 :: body.map ReadEvent.ok ++ suffix ∧
      (∀ f ∈ pre, f.rms ≤ L) ∧ L < f0.rms ∧
      buf = (List.replicate N (silentFrame B) ++ pre).drop pre.length ++ f0 :: body ∧
      body = mid ++ trail ∧ trail.length = N ∧ (∀ f ∈ trail, f.rms ≤ L) ∧
      L < (mid.getLastD f0).rms := by
  obtain ⟨pre, f0, rest, heq, hpre, hf0, hrun⟩ :=
    segRun_lookback_phase L N events (List.replicate N (silentFrame B)) buf h
  have hlb : lookAfter (List.replicate N (silentFrame B)) pre =
      (List.replicate N (silentFrame B) ++ pre).drop pre.length :=
    lookAfter_formula pre (List.replicate N (silentFrame B)) (by simpa using hN)
  have hrun2 : segRun L N ⟨lookAfter (List.replicate N (silentFrame B)) pre,
      (lookAfter (List.replicate N (silentFrame B)) pre ++ [f0]) ++ ([] : List Frame),
      ([] : List Frame).length, true⟩ rest = some buf := by
    simpa using hrun
  obtain ⟨body, mid, trail, suffix, heq2, hbuf, hsplit, htr, htrq, hmidl⟩ :=
    segRun_recording_phase L N rest (lookAfter (List.replicate N (silentFrame B)) pre)
      (lookAfter (List.replicate N (silentFrame B)) pre ++ [f0]) [] f0 buf
      (by simpa using hN) (by simp) (by simp) hf0 hrun2
  refine ⟨pre, f0, body, mid, trail, suffix, ?_, hpre, hf0, ?_, by simpa using hsplit,
    htr, htrq, hmidl⟩
  · rw [heq, heq2]
    simp
  · rw [hbuf, hlb]
    simp

/-- Witness for C7: a concrete finalized utterance with look-back size 1,
one quiet pre-speech frame, one onset frame and one trailing quiet frame
has the asserted decomposition. -/
theorem segmenter_buffer_shape_witness :
    ∃ (pre : List Frame) (f0 : Frame) (body mid trail : List Frame)
      (suffix : List ReadEvent),
      ([ReadEvent.ok ⟨8, 0⟩, ReadEvent.ok ⟨8, 10⟩, ReadEvent.ok ⟨8, 0⟩]
          : List ReadEvent) =
        pre.map ReadEvent.ok ++ ReadEvent.ok f0 :: body.map ReadEvent.ok ++ suffix ∧
      (∀ f ∈ pre, f.rms ≤ 5) ∧ 5 < f0.rms ∧
      ([⟨8, 0⟩, ⟨8, 10⟩, ⟨8, 0⟩] : List Frame) =
        (List.replicate 1 (silentFrame 8) ++ pre).drop pre.length ++ f0 :: body ∧
      body = mid ++ trail ∧ trail.length = 1 ∧ (∀ f ∈ trail, f.rms ≤ 5) ∧
      5 < (mid.getLastD f0).rms :=
  segmenter_buffer_shape 5 1 8
    [ReadEvent.ok ⟨8, 0⟩, ReadEvent.ok ⟨8, 10⟩, ReadEvent.ok ⟨8, 0⟩]
    [⟨8, 0⟩, ⟨8, 10⟩, ⟨8, 0⟩] (by decide) (by decide)

/-- A read error or an empty read behaves as the end of the stream: the
run over any prefix followed by such an event ignores everything after
it, and an utterance in progress at that point is discarded, never
finalized. -/
theorem segRun_truncates (L N : ℕ) :
    ∀ (pre : List ReadEvent) (s : SegState) (e : ReadEvent) (rest : List ReadEvent),
      (e = ReadEvent.err ∨
        ∃ f : Frame, e = ReadEvent.ok f ∧ (f.nbytes = 0 ∨ f.nbytes % 2 ≠ 0)) →
      segRun L N s (pre ++ e :: rest) = segRun L N s pre := by
  intro pre
  induction pre with
  | nil =>
    intro s e rest he
    rcases he with rfl | ⟨f, rfl, hf0 | hfm⟩
    · rfl
    · simp [segRun, hf0]
    · have hb : ¬ (f.nbytes = 0) := by
        intro h0
        rw [h0] at hfm
        exact hfm rfl
      simp [segRun, hb, hfm]
  | cons e0 pre ih =>
    intro s e rest he
    cases e0 with
    | err => rfl
    | ok f =>
      by_cases hb : f.nbytes = 0
      · simp [segRun, hb]
      · by_cases hm : f.nbytes % 2 ≠ 0
        · simp [segRun, hb, hm]
        · simp only [List.cons_append, segRun, if_neg hb, if_neg hm]
          cases hstep : segStep L N s f with
          | inl s2 => exact ih s2 e rest he
          | inr b => rfl

/-- Claim C9 counterexample: a short but width-aligned read, 6 bytes
against the expected 1024, is processed as an ordinary frame rather than
ending the stream: audioop.rms accepts the 3-sample block, and the
segmenter goes on to finalize an utterance that contains the short
frame, instead of returning the null result the claim asserts. -/
theorem short_read_does_not_end_stream :
    ((0 : ℕ) < 6 ∧ (6 : ℕ) < 1024 ∧ (6 : ℕ) % 2 = 0) ∧
    record_one_segment 5 2 1024
        [ReadEvent.ok ⟨1024, 10⟩, ReadEvent.ok ⟨6, 0⟩, ReadEvent.ok ⟨1024, 0⟩] =
      some [⟨1024, 0⟩, ⟨1024, 0⟩, ⟨1024, 10⟩, ⟨6, 0⟩, ⟨1024, 0⟩] := by decide

/-- Claim C9 (amended): an empty read, not any short read, signals stream
end; it, a read error, and a nonempty read whose byte length is not a
multiple of the sample width 2, whose audioop.error aborts the recorder,
all truncate the run at that point, so the result is exactly that of the
prefix before the event: none when no utterance had been finalized, with
any in-progress utterance discarded.  A width-aligned short read is
instead processed as an ordinary frame. -/
theorem stream_end_on_empty_or_error (L N B : ℕ) (pre rest : List ReadEvent) (f : Frame) :
    (record_one_segment L N B (pre ++ ReadEvent.err :: rest) =
      record_one_segment L N B pre) ∧
    (f.nbytes = 0 →
      record_one_segment L N B (pre ++ ReadEvent.ok f :: rest) =
        record_one_segment L N B pre) ∧
    (f.nbytes % 2 ≠ 0 →
      record_one_segment L N B (pre ++ ReadEvent.ok f :: rest) =
        record_one_segment L N B pre) := by
  refine ⟨?_, ?_, ?_⟩
  · exact segRun_truncates L N pre (initSeg B N) ReadEvent.err rest (Or.inl rfl)
  · intro hf
    exact segRun_truncates L N pre (initSeg B N) (ReadEvent.ok f) rest
      (Or.inr ⟨f, rfl, Or.inl hf⟩)
  · intro hf
    exact segRun_truncates L N pre (initSeg B N) (ReadEvent.ok f) rest
      (Or.inr ⟨f, rfl, Or.inr hf⟩)

/-- Witness for C9 at concrete in-progress utterances cut by an empty
read and by a misaligned 5-byte read: the event after the cut is ignored
and no buffer is produced. -/
theorem stream_end_witness :
    (record_one_segment 5 2 1024
        ([ReadEvent.ok ⟨1024, 10⟩] ++ ReadEvent.ok ⟨0, 0⟩ :: [ReadEvent.ok ⟨1024, 99⟩]) =
      record_one_segment 5 2 1024 [ReadEvent.ok ⟨1024, 10⟩]) ∧
    (record_one_segment 5 2 1024
        ([ReadEvent.ok ⟨1024, 10⟩] ++ ReadEvent.ok ⟨5, 7⟩ :: [ReadEvent.ok ⟨1024, 99⟩]) =
      record_one_segment 5 2 1024 [ReadEvent.ok ⟨1024, 10⟩]) :=
  ⟨(stream_end_on_empty_or_error 5 2 1024 [ReadEvent.ok ⟨1024, 10⟩]
      [ReadEvent.ok ⟨1024, 99⟩] ⟨0, 0⟩).2.1 rfl,
    (stream_end_on_empty_or_error 5 2 1024 [ReadEvent.ok ⟨1024, 10⟩]
      [ReadEvent.ok ⟨1024, 99⟩] ⟨5, 7⟩).2.2 (by decide)⟩

/-- Claim C10: the consumer loop of main.py calls transcribe_full_segment
with keyword arguments min_silence_len and silence_thresh that its
signature does not accept, so the call raises TypeError before the body
runs; the generic handler catches it, and the iteration persists and
notifies nothing, whatever the transcription and filter oracles would
have produced. -/
theorem main_call_always_raises :
    kwargs_accepted transcribe_full_segment_params main_transcribe_call_kwargs = false ∧
    ("min_silence_len" ∈ main_transcribe_call_kwargs ∧
      "min_silence_len" ∉ transcribe_full_segment_params) ∧
    ∀ (tfs : Unit → Option PyStr) (filter_fn : PyStr → Option PyStr),
      main_loop_iteration main_transcribe_call_kwargs tfs filter_fn =
        MainIterResult.exceptionCaught := by
  refine ⟨by decide, by decide, ?_⟩
  intro tfs filter_fn
  rfl

/-- Claim C5: for every positive duration, smells_too_long flags exactly
when the word count is at least 20 and the exact rate, word count divided
by duration, exceeds 5.5 words per second.  The source divides by
max(duration, 0.1); for positive durations this changes nothing, because
with at least 20 words both rates exceed the threshold whenever the
duration is at most 0.1 s. -/
theorem speed_anomaly_iff (text : PyStr) (dur : ℚ) (hdur : 0 < dur) :
    smells_too_long text dur = true ↔
      20 ≤ (pyWords text).length ∧
        (11 : ℚ) / 2 < ((pyWords text).length : ℚ) / dur := by
  rw [show smells_too_long text dur =
      (if (pyWords text).length < 20 then false
       else decide ((11 : ℚ) / 2 <
         ((pyWords text).length : ℚ) / max dur ((1 : ℚ) / 10))) from rfl]
  by_cases hw : (pyWords text).length < 20
  · rw [if_pos hw]
    constructor
    · intro h; exact absurd h (by simp)
    · rintro ⟨h20, -⟩; omega
  · rw [if_neg hw, decide_eq_true_eq]
    have h20 : 20 ≤ (pyWords text).length := Nat.not_lt.mp hw
    have hw20 : (20 : ℚ) ≤ ((pyWords text).length : ℚ) := by exact_mod_cast h20
    have hmax : 0 < max dur ((1 : ℚ) / 10) := lt_max_iff.mpr (Or.inl hdur)
    constructor
    · intro h
      refine ⟨h20, ?_⟩
      rw [lt_div_iff₀ hmax] at h
      rw [lt_div_iff₀ hdur]
      rcases le_or_lt ((1 : ℚ) / 10) dur with hc | hc
      · rwa [max_eq_left hc] at h
      · nlinarith
    · rintro ⟨-, h⟩
      rw [lt_div_iff₀ hdur] at h
      rw [lt_div_iff₀ hmax]
      rcases le_or_lt ((1 : ℚ) / 10) dur with hc | hc
      · rwa [max_eq_left hc]
      · rw [max_eq_right (le_of_lt hc)]
        nlinarith

/-- Witness for C5 at a concrete 25-word transcript over 2 seconds. -/
theorem speed_anomaly_witness :
    smells_too_long ("w w w w w w w w w w w w w w w w w w w w w w w w w").toList 2 = true ↔
      20 ≤ (pyWords ("w w w w w w w w w w w w w w w w w w w w w w w w w").toList).length ∧
        (11 : ℚ) / 2 <
          ((pyWords ("w w w w w w w w w w w w w w w w w w w w w w w w w").toList).length : ℚ) / 2 :=
  speed_anomaly_iff ("w w w w w w w w w w w w w w w w w w w w w w w w w").toList 2 (by norm_num)

theorem smells_too_long_nil (dur : ℚ) : smells_too_long [] dur = false := rfl

theorem is_hallucination_nil : is_hallucination [] = false := rfl

theorem contains_prompt_snippet_nil (p : PyStr) : contains_prompt_snippet [] p = false := by
  have h : (normalize_text ([] : PyStr)).length < 24 := by decide
  simp only [contains_prompt_snippet]
  rw [if_pos (Or.inr h)]

theorem anyEcho_nil (dispatch shortP basicP : PyStr) :
    anyEcho [] dispatch shortP basicP = false := by
  simp [anyEcho, contains_prompt_snippet_nil]

theorem primaryFlagged_nil (dur : ℚ) (dispatch shortP basicP : PyStr) :
    primaryFlagged [] dur dispatch shortP basicP = false := by
  simp [primaryFlagged, smells_too_long_nil, is_hallucination_nil, anyEcho_nil]

/-- Claim C2 counterexample: a primary transcript that only echoes the
dispatch prompt, over an utterance of 0.5 s, is flagged, yet the gate
returns None directly, with no alternate-model pass at all. -/
theorem gate_short_echo_skips_without_escalation :
    primaryFlagged ("abcdefghijklmnopqrstuvwxyz").toList (mkRat 1 2)
        ("abcdefghijklmnopqrstuvwxyz").toList [] [] = true ∧
    transcribe_full_segment (fun _ : ℕ => mkRat 1 2)
        (fun _ => some ("abcdefghijklmnopqrstuvwxyz").toList) [0]
        (fun _ _ => none) [] (mkRat 1 2)
        ("abcdefghijklmnopqrstuvwxyz").toList [] [] =
      TfsOutcome.skippedShortEcho := by decide

/-- Claim C2 (amended): whenever the concatenated primary transcript is
flagged by any of the three heuristics, the primary result is never
accepted; the gate escalates to the alternate model, first with a priming
hint, except in the single case where the speed and hallucination
heuristics are clear, so only prompt echo fired, and the utterance is
shorter than 1 s, in which case the result is discarded with no alternate
attempt. -/
theorem gate_flagged_never_accepted {χ : Type} (durOf : χ → ℚ)
    (whisper : χ → Option PyStr) (chunks : List χ) (altRes : Bool → χ → Option PyStr)
    (altChunks : List χ) (final_duration : ℚ) (dispatch shortP basicP : PyStr)
    (final : PyStr)
    (hfinal : final = stripPy (joinSpace (primary_loop durOf whisper chunks).1))
    (hflag : primaryFlagged final final_duration dispatch shortP basicP = true) :
    transcribe_full_segment durOf whisper chunks altRes altChunks final_duration
        dispatch shortP basicP =
      (if smells_too_long final final_duration = false ∧
          is_hallucination final = false ∧ final_duration < 1
       then TfsOutcome.skippedShortEcho
       else TfsOutcome.escalated (reprocess_with_alternate_model altRes altChunks
         final_duration dispatch shortP basicP)) := by
  subst hfinal
  unfold transcribe_full_segment
  by_cases hempty : chunks.isEmpty = true
  · exfalso
    rw [List.isEmpty_iff] at hempty
    subst hempty
    rw [show stripPy (joinSpace (primary_loop durOf whisper ([] : List χ)).1) = []
      from rfl, primaryFlagged_nil] at hflag
    exact Bool.false_ne_true hflag
  · rw [if_neg hempty]
    unfold primaryFlagged at hflag
    cases hsm : smells_too_long
        (stripPy (joinSpace (primary_loop durOf whisper chunks).1)) final_duration with
    | true => simp [hsm]
    | false =>
      cases hih : is_hallucination
          (stripPy (joinSpace (primary_loop durOf whisper chunks).1)) with
      | true => simp [hsm, hih]
      | false =>
        rw [hsm, hih] at hflag
        simp only [Bool.false_or] at hflag
        by_cases hd : final_duration < 1
        · simp [hsm, hih, hflag, hd]
        · simp [hsm, hih, hflag, hd]

/-- Witness for C2 at a concrete flagged transcript: five repetitions of
one word trip the hallucination heuristic, and the gate escalates. -/
theorem gate_flagged_witness :
    transcribe_full_segment (fun _ : ℕ => (1 : ℚ)) (fun _ => some ("x x x x x").toList)
        [0] (fun _ _ => none) ([] : List ℕ) 2 [] [] [] =
      (if smells_too_long ("x x x x x").toList 2 = false ∧
          is_hallucination ("x x x x x").toList = false ∧ (2 : ℚ) < 1
       then TfsOutcome.skippedShortEcho
       else TfsOutcome.escalated (reprocess_with_alternate_model (fun _ _ => none)
         ([] : List ℕ) 2 [] [] [])) :=
  gate_flagged_never_accepted (fun _ : ℕ => (1 : ℚ)) (fun _ => some ("x x x x x").toList)
    [0] (fun _ _ => none) ([] : List ℕ) 2 [] [] [] ("x x x x x").toList
    (by decide) (by decide)

/-- Claim C3: the alternate pass makes at most two attempts; if the
hinted attempt is flagged and the utterance is under 1 s, the result is
discarded as the empty transcript after exactly one attempt; if the
hinted attempt is flagged and the utterance is at least 1 s, exactly one
more attempt is made without the hint, and if the heuristics flag that
result too it is discarded; an unflagged hinted attempt is returned after
one attempt. -/
theorem alternate_pass_bounded_retry {χ : Type} (altRes : Bool → χ → Option PyStr)
    (altChunks : List χ) (final_duration : ℚ) (dispatch shortP basicP : PyStr) :
    (reprocess_with_alternate_model altRes altChunks final_duration
        dispatch shortP basicP).2 ≤ 2 ∧
    (alt_flag (alt_transcribe (altRes true) altChunks) final_duration
        dispatch shortP basicP = true →
      final_duration < 1 →
      reprocess_with_alternate_model altRes altChunks final_duration
        dispatch shortP basicP = ([], 1)) ∧
    (alt_flag (alt_transcribe (altRes true) altChunks) final_duration
        dispatch shortP basicP = true →
      ¬ final_duration < 1 →
      (reprocess_with_alternate_model altRes altChunks final_duration
          dispatch shortP basicP).2 = 2 ∧
      (alt_flag (alt_transcribe (altRes false) altChunks) final_duration
          dispatch shortP basicP = true →
        (reprocess_with_alternate_model altRes altChunks final_duration
          dispatch shortP basicP).1 = [])) ∧
    (alt_flag (alt_transcribe (altRes true) altChunks) final_duration
        dispatch shortP basicP = false →
      reprocess_with_alternate_model altRes altChunks final_duration
        dispatch shortP basicP = (alt_transcribe (altRes true) altChunks, 1)) := by
  unfold alt_flag reprocess_with_alternate_model
  cases hf1 : (smells_too_long (alt_transcribe (altRes true) altChunks) final_duration ||
      is_hallucination (alt_transcribe (altRes true) altChunks) ||
      anyEcho (alt_transcribe (altRes true) altChunks) dispatch shortP basicP) with
  | false =>
    have hcomp := hf1
    rw [Bool.or_eq_false_iff, Bool.or_eq_false_iff] at hcomp
    obtain ⟨⟨hsm, hih⟩, hec⟩ := hcomp
    refine ⟨?_, ?_, ?_, ?_⟩
    · simp [hf1, hsm, hih, hec]
    · intro hcontra
      simp at hcontra
    · intro hcontra
      simp at hcontra
    · intro _
      simp [hf1, hsm, hih, hec]
  | true =>
    by_cases hd : final_duration < 1
    · refine ⟨?_, ?_, ?_, ?_⟩
      · simp [hf1, hd]
      · intro _ _
        simp [hf1, hd]
      · intro _ hcontra
        exact absurd hd hcontra
      · intro hcontra
        simp at hcontra
    · cases hf2 : (anyEcho (alt_transcribe (altRes false) altChunks) dispatch shortP basicP ||
          smells_too_long (alt_transcribe (altRes false) altChunks) final_duration ||
          is_hallucination (alt_transcribe (altRes false) altChunks)) with
      | true =>
        refine ⟨?_, ?_, ?_, ?_⟩
        · simp [hf1, hd, hf2]
        · intro _ h1
          exact absurd h1 hd
        · intro _ _
          refine ⟨by simp [hf1, hd, hf2], fun _ => by simp [hf1, hd, hf2]⟩
        · intro hcontra
          simp at hcontra
      | false =>
        have hcomp := hf2
        rw [Bool.or_eq_false_iff, Bool.or_eq_false_iff] at hcomp
        obtain ⟨⟨hec2, hsm2⟩, hih2⟩ := hcomp
        refine ⟨?_, ?_, ?_, ?_⟩
        · simp [hf1, hd, hf2]
        · intro _ h1
          exact absurd h1 hd
        · intro _ _
          refine ⟨by simp [hf1, hd, hf2], fun hcontra => ?_⟩
          rw [hsm2, hih2, hec2] at hcontra
          exact absurd hcontra (by simp)
        · intro hcontra
          simp at hcontra

/-- Witness for C3 at a concrete hinted transcript that echoes the
dispatch prompt over a 0.5 s utterance: discarded after one attempt. -/
theorem alternate_pass_witness :
    reprocess_with_alternate_model
        (fun _ (_ : ℕ) => some ("abcdefghijklmnopqrstuvwxyz").toList) [0] (mkRat 1 2)
        ("abcdefghijklmnopqrstuvwxyz").toList [] [] = ([], 1) :=
  (alternate_pass_bounded_retry
      (fun _ (_ : ℕ) => some ("abcdefghijklmnopqrstuvwxyz").toList) [0] (mkRat 1 2)
      ("abcdefghijklmnopqrstuvwxyz").toList [] []).2.1 (by decide) (by decide)

/-- Claim C8 counterexample: the alternate pass sends every chunk of its
split to the alternate model; a chunk of duration 0.1 s, below the
0.25 s minimum, is still attempted, where the claim says it is excluded
before any transcription call. -/
theorem alt_pass_attempts_short_chunk :
    (alt_loop (fun _ : ℚ => (none : Option PyStr)) [mkRat 1 10]).2 = [mkRat 1 10] ∧
      mkRat 1 10 < mkRat 1 4 := by decide

/-- Claim C8 (amended): in the primary pass, every chunk sent for
transcription has duration at least 0.25 s, shorter ones being deleted
unseen; the alternate pass sends every chunk of its split, with no
minimum-duration exclusion. -/
theorem chunk_duration_filter :
    (∀ (χ : Type) (durOf : χ → ℚ) (whisper : χ → Option PyStr) (chunks : List χ),
      ∀ c ∈ (primary_loop durOf whisper chunks).2, ¬ (durOf c < mkRat 1 4)) ∧
    (∀ (χ : Type) (res : χ → Option PyStr) (chunks : List χ),
      (alt_loop res chunks).2 = chunks) := by
  constructor
  · intro χ durOf whisper chunks
    induction chunks with
    | nil => simp [primary_loop]
    | cons a l ih =>
      intro c hc
      by_cases hd : durOf a < mkRat 1 4
      · rw [show (primary_loop durOf whisper (a :: l)).2 =
            (primary_loop durOf whisper l).2 from by
          simp [primary_loop, hd]] at hc
        exact ih c hc
      · have h2 : (primary_loop durOf whisper (a :: l)).2 =
            a :: (primary_loop durOf whisper l).2 := by
          cases hwa : whisper a <;> simp [primary_loop, hd, hwa]
        rw [h2] at hc
        rcases List.mem_cons.mp hc with rfl | hc
        · exact hd
        · exact ih c hc
  · intro χ res chunks
    induction chunks with
    | nil => rfl
    | cons a l ih =>
      cases hra : res a <;> simp [alt_loop, hra, ih]

/-- Witness for C8: a concrete chunk list where the primary pass skips
the 0.1 s chunk and keeps the 0.5 s one, and the alternate pass attempts
its whole list. -/
theorem chunk_duration_filter_witness :
    (alt_loop (fun _ : ℚ => (none : Option PyStr)) [mkRat 1 2]).2 = [mkRat 1 2] ∧
      ¬ ((mkRat 1 2 : ℚ) < mkRat 1 4) :=
  ⟨chunk_duration_filter.2 ℚ (fun _ => none) [mkRat 1 2],
    chunk_duration_filter.1 ℚ id (fun _ => none) [mkRat 1 10, mkRat 1 2] (mkRat 1 2)
      (by decide)⟩

/-- Witness for C1 at the concrete text "a b c": the equivalence
instantiated there. -/
theorem hallucination_iff_witness :
    is_hallucination ("a b c").toList = true ↔
      ∃ n i : ℕ, 3 ≤ n ∧ n ≤ 6 ∧ i + n ≤ (pyWords ("a b c").toList).length ∧
        3 ≤ (allNgrams ("a b c").toList).count
          (joinSpace (((pyWords ("a b c").toList).drop i).take n)) ∧
        (2 : ℚ) / 5 ≤
          ((n * (allNgrams ("a b c").toList).count
              (joinSpace (((pyWords ("a b c").toList).drop i).take n)) : ℕ) : ℚ) /
            (((pyWords ("a b c").toList).length : ℕ) : ℚ) :=
  hallucination_iff_covered_repeat.1 ("a b c").toList

/-- Witness for C4 at concrete transcript and hint sharing a 24-character
normalized window. -/
theorem prompt_echo_witness :
    contains_prompt_snippet ("abcdefghijklmnopqrstuvwxyz").toList
        ("zzz abcdefghijklmnopqrstuvwx").toList = true ↔
      ∃ s : PyStr, s <:+: normalize_text ("zzz abcdefghijklmnopqrstuvwx").toList ∧
        s.length = 24 ∧
        s <:+: normalize_text ("abcdefghijklmnopqrstuvwxyz").toList :=
  prompt_echo_iff_shared_window ("abcdefghijklmnopqrstuvwxyz").toList
    ("zzz abcdefghijklmnopqrstuvwx").toList

/-- Witness for C10 at concrete oracles: the iteration still only catches
the TypeError. -/
theorem main_call_witness :
    main_loop_iteration main_transcribe_call_kwargs (fun _ => some ("hi").toList)
        (fun t => some t) = MainIterResult.exceptionCaught :=
  main_call_always_raises.2.2 (fun _ => some ("hi").toList) (fun t => some t)
